import Mathlib

/-!
Verification of the company-discovery pipeline of
`linkedin-company-url-mass-finder`: pagination arithmetic
(`src/utils/pagination_handler.py`), URL normalization
(`src/utils/result_parser.py`), the per-name search loop and the multi-name
driver (`src/utils/linkedin_search.py`), and configuration construction
(`LinkedInCompanySearcher.__init__`).

Strings are modelled as `List Char`.  The repository delegates URL splitting
to CPython's `urllib.parse`; these library functions (`urlparse`, `urlsplit`,
`urlunparse`, `parse_qs`) are embedded below following the CPython (>= 3.11)
implementation, restricted to the behaviours the repository exercises:
IPv6-bracket validation errors and multi-byte (non-ASCII) percent-decoding
are outside the modelled fragment, and `str.strip()` is modelled over ASCII
whitespace.  HTML extraction (BeautifulSoup) is treated as part of the fetch
oracle: the search loop is verified for every sequence of per-page record
lists the fetch-plus-extract pipeline may deliver.
-/

abbrev Str := List Char

def cl (s : String) : Str := s.toList

/-! ### Character classes used by CPython `urllib.parse` -/

/-- WHATWG C0-control-or-space class: stripped from both ends of a URL
before splitting (`_WHATWG_C0_CONTROL_OR_SPACE`). -/
def isStripChar (c : Char) : Bool := c.toNat ≤ 32

/-- Bytes removed anywhere in a URL (`_UNSAFE_URL_BYTES_TO_REMOVE`). -/
def isUnsafeChar (c : Char) : Bool := c = '\t' || c = '\r' || c = '\n'

/-- Characters allowed in a URL scheme (`scheme_chars`). -/
def schemeChars : Str :=
  cl "abcdefghijklmnopqrstuvwxyzABCDEFGHIJKLMNOPQRSTUVWXYZ0123456789+-."

def isAsciiAlpha (c : Char) : Bool :=
  ('a' ≤ c && c ≤ 'z') || ('A' ≤ c && c ≤ 'Z')

/-- ASCII lowering; CPython applies `str.lower()` only to strings already
validated against the ASCII-only `scheme_chars`. -/
def lowerChar (c : Char) : Char :=
  if 'A' ≤ c && c ≤ 'Z' then Char.ofNat (c.toNat + 32) else c

/-! ### List-level string primitives -/

/-- Split at the first occurrence of `c`: `some (before, after)` with the
occurrence removed, or `none` when `c` does not occur. -/
def splitFirst (c : Char) : Str → Option (Str × Str)
  | [] => none
  | x :: xs =>
    if x = c then some ([], xs)
    else (splitFirst c xs).map (fun p => (x :: p.1, p.2))

theorem splitFirst_eq_some (c : Char) :
    ∀ l a b, splitFirst c l = some (a, b) → l = a ++ c :: b := by
  intro l
  induction l with
  | nil => intro a b h; simp [splitFirst] at h
  | cons x xs ih =>
    intro a b h
    by_cases hx : x = c
    · simp [splitFirst, hx] at h
      simp [hx, ← h.1, ← h.2]
    · simp only [splitFirst, if_neg hx, Option.map_eq_some'] at h
      obtain ⟨⟨p1, p2⟩, hp, hv⟩ := h
      cases hv
      simp [ih p1 p2 hp]

/-- `l = a ++ '/' :: b` with `b` slash-free (split at the last slash). -/
def splitLastSlash (l : Str) : Option (Str × Str) :=
  match splitFirst '/' l.reverse with
  | some p => some (p.2.reverse, p.1.reverse)
  | none => none

def lstripWs (l : Str) : Str := l.dropWhile isStripChar

def rstripWs (l : Str) : Str := (l.reverse.dropWhile isStripChar).reverse

def stripWs (l : Str) : Str := rstripWs (lstripWs l)

def removeUnsafe (l : Str) : Str := l.filter (fun c => !isUnsafeChar c)

/-! ### CPython `urllib.parse` model -/

structure ParseResult where
  scheme : Str
  netloc : Str
  path : Str
  params : Str
  query : Str
  fragment : Str
deriving DecidableEq, Repr

/-- Scheme recognition of `urlsplit`: the text before the first `:` must be
nonempty, start with an ASCII letter and consist of `scheme_chars`; it is
lowercased.  Returns `(scheme, rest)`. -/
def splitScheme (url : Str) : Str × Str :=
  match splitFirst ':' url with
  | some (pre, post) =>
    match pre with
    | [] => ([], url)
    | c :: cs =>
      if isAsciiAlpha c && (c :: cs).all (fun d => schemeChars.contains d) then
        ((c :: cs).map lowerChar, post)
      else ([], url)
  | none => ([], url)

def isNetlocEnd (c : Char) : Bool := c = '/' || c = '?' || c = '#'

/-- `_splitnetloc`: when the remainder starts with `//`, the netloc extends
to the first of `/`, `?`, `#`. -/
def splitNetloc (url : Str) : Str × Str :=
  match url with
  | '/' :: '/' :: rest =>
    (rest.takeWhile (fun c => !isNetlocEnd c),
     rest.dropWhile (fun c => !isNetlocEnd c))
  | _ => ([], url)

def splitFragment (url : Str) : Str × Str :=
  match splitFirst '#' url with
  | some p => p
  | none => (url, [])

def splitQuery (url : Str) : Str × Str :=
  match splitFirst '?' url with
  | some p => p
  | none => (url, [])

/-- CPython `urlsplit` (with `allow_fragments=True`): strip C0/space at both
ends, remove tab/CR/LF, then split scheme, netloc, fragment, query. -/
def urlsplit (rawUrl : Str) : ParseResult :=
  let url := removeUnsafe (stripWs rawUrl)
  let sp := splitScheme url
  let np := splitNetloc sp.2
  let fp := splitFragment np.2
  let qp := splitQuery fp.1
  ⟨sp.1, np.1, qp.1, [], qp.2, fp.2⟩

/-- CPython `_splitparams`: if the path contains a slash, split at the first
`;` at or after the last slash (no split when there is none); otherwise
split at the first `;`. -/
def splitparams (url : Str) : Str × Str :=
  match splitLastSlash url with
  | some (a, b) =>
    match splitFirst ';' b with
    | some (b1, b2) => (a ++ '/' :: b1, b2)
    | none => (url, [])
  | none =>
    match splitFirst ';' url with
    | some (u1, u2) => (u1, u2)
    | none => (url, [])

/-- CPython `urlparse`: `urlsplit`, then separate the params from the path
when the path contains a `;`. -/
def urlparse (rawUrl : Str) : ParseResult :=
  let r := urlsplit rawUrl
  if r.path.contains ';' then
    let pp := splitparams r.path
    { r with path := pp.1, params := pp.2 }
  else r

/-- CPython `urlunsplit`. -/
def urlunsplit (scheme netloc url query fragment : Str) : Str :=
  let url :=
    if netloc ≠ [] || url.take 2 = ['/', '/'] then
      let url := if url ≠ [] && url.head? ≠ some '/' then '/' :: url else url
      '/' :: '/' :: (netloc ++ url)
    else url
  let url := if scheme ≠ [] then scheme ++ ':' :: url else url
  let url := if query ≠ [] then url ++ '?' :: query else url
  if fragment ≠ [] then url ++ '#' :: fragment else url

/-- CPython `urlunparse`: re-attach the params with `;`, then `urlunsplit`. -/
def urlunparse (p : ParseResult) : Str :=
  let url := if p.params ≠ [] then p.path ++ ';' :: p.params else p.path
  urlunsplit p.scheme p.netloc url p.query p.fragment

/-! ### CPython `parse_qs` model -/

def hexVal (c : Char) : Option Nat :=
  if '0' ≤ c && c ≤ '9' then some (c.toNat - 48)
  else if 'a' ≤ c && c ≤ 'f' then some (c.toNat - 87)
  else if 'A' ≤ c && c ≤ 'F' then some (c.toNat - 55)
  else none

/-- Percent-decoding (`unquote`), single-byte fragment: `%XY` with hex
digits becomes the character with that code; malformed escapes are kept
verbatim. -/
def percentDecode : Str → Str
  | [] => []
  | '%' :: a :: b :: rest =>
    match hexVal a, hexVal b with
    | some x, some y => Char.ofNat (16 * x + y) :: percentDecode rest
    | _, _ => '%' :: percentDecode (a :: b :: rest)
  | c :: rest => c :: percentDecode rest

/-- `unquote_plus`: `+` becomes a space, then percent-decode. -/
def unquote_plus (l : Str) : Str :=
  percentDecode (l.map (fun c => if c = '+' then ' ' else c))

/-- Split on every occurrence of `c` (CPython `str.split(c)`), with an
accumulator for the current field. -/
def splitAllAux (c : Char) : Str → Str → List Str
  | [], acc => [acc.reverse]
  | x :: xs, acc =>
    if x = c then acc.reverse :: splitAllAux c xs []
    else splitAllAux c xs (x :: acc)

def splitAll (c : Char) (l : Str) : List Str := splitAllAux c l []

/-- CPython `parse_qsl` with default options: split fields on `&`, skip
empty fields, skip fields without `=` or with an empty value, decode names
and values with `unquote_plus`. -/
def parse_qsl (qs : Str) : List (Str × Str) :=
  (splitAll '&' qs).filterMap fun nv =>
    if nv = [] then none
    else match splitFirst '=' nv with
      | none => none
      | some (n, v) => if v = [] then none else some (unquote_plus n, unquote_plus v)

/-- All values stored under key `k` (`parse_qs` dictionary lookup). -/
def qsGet (k : Str) (ps : List (Str × Str)) : List Str :=
  (ps.filter (fun p => p.1 = k)).map (fun p => p.2)

/-- `query.get("q") or query.get("url") or []`, then the first element. -/
def getCandidate (ps : List (Str × Str)) : Option Str :=
  match qsGet (cl "q") ps with
  | c :: _ => some c
  | [] =>
    match qsGet (cl "url") ps with
    | c :: _ => some c
    | [] => none

/-! ### `ResultParser._normalize_linkedin_url` -/

/-- Python's substring test `needle in hay`. -/
def inStr (needle : Str) : Str → Bool
  | [] => needle.isPrefixOf []
  | x :: t => needle.isPrefixOf (x :: t) || inStr needle t

def linkedinDomain : Str := cl "linkedin.com"

def companyMarker : Str := cl "/company/"

/-- `raw_url.startswith("http")`. -/
def startsWithHttp (l : Str) : Bool := l.take 4 = cl "http"

/-- `if normalized.endswith("/"): normalized = normalized.rstrip("/")` —
note `rstrip` removes every trailing slash. -/
def rstripSlash (l : Str) : Str :=
  if l.getLast? = some '/' then (l.reverse.dropWhile (fun c => c = '/')).reverse
  else l

/-- The tail of `_normalize_linkedin_url` after the redirect-unwrapping
step: reject unless the host mentions `linkedin.com` and the path contains
`/company/`; otherwise clear query and fragment, unparse and normalize the
trailing slashes. -/
def acceptParsed (parsed : ParseResult) : Option Str :=
  if !inStr linkedinDomain parsed.netloc then none
  else if !inStr companyMarker parsed.path then none
  else
    some (rstripSlash (urlunparse { parsed with query := [], fragment := [] }))

/-- `ResultParser._normalize_linkedin_url` (`src/utils/result_parser.py`). -/
def normalize_linkedin_url (raw_url : Str) : Option Str :=
  if raw_url = [] then none
  else
    let parsed := urlparse raw_url
    let parsed :=
      if !inStr linkedinDomain parsed.netloc && !startsWithHttp raw_url then
        match getCandidate (parse_qsl parsed.query) with
        | some cand => urlparse cand
        | none => parsed
      else parsed
    acceptParsed parsed

/-! ### `PaginationHandler` (`src/utils/pagination_handler.py`) -/

/-- `PaginationHandler.calculate_offset`. -/
def calculate_offset (page per_page : Int) : Int :=
  let page := if page < 1 then 1 else page
  let per_page := if per_page < 1 then 1 else per_page
  (page - 1) * per_page

/-- `PaginationHandler.iter_pages`: the list yielded by the generator,
`range(start_page, start_page + max_pages)` after clamping both arguments
to at least 1. -/
def iter_pages (start_page max_pages : Int) : List Int :=
  let start_page := if start_page < 1 then 1 else start_page
  let max_pages := if max_pages < 1 then 1 else max_pages
  (List.range max_pages.toNat).map (fun (i : Nat) => start_page + (i : Int))

/-! ### `LinkedInCompanySearcher.search_company` and `search_for_companies`

The external effects are abstracted into a fetch oracle
`fetch : Str → Int → PageOutcome` giving, per company name and page number,
either the record list that `_fetch_page` plus
`ResultParser.extract_linkedin_results` would produce for that page, or a
transport failure (`requests.RequestException`).  The loop is additionally
instrumented with the list of pages it actually fetches. -/

structure ResultRecord where
  title : Str
  link : Str
  searchQuery : Str
deriving DecidableEq, Repr

inductive PageOutcome where
  | ok (records : List ResultRecord)
  | fail
deriving DecidableEq, Repr

/-- The per-page de-duplication block of `search_company`: records with a
falsy (empty) link or an already seen link are dropped; the rest are
appended in order and their links added to the seen set (modelled as a
list with membership semantics). -/
def dedupPage (seen : List Str) : List ResultRecord → List ResultRecord × List Str
  | [] => ([], seen)
  | item :: rest =>
    if item.link = [] then dedupPage seen rest
    else if item.link ∈ seen then dedupPage seen rest
    else
      let r := dedupPage (item.link :: seen) rest
      (item :: r.1, r.2)

/-- Python slicing `l[:n]`: a negative stop counts from the end and clamps
at zero. -/
def pySlice (n : Int) (l : List α) : List α :=
  if 0 ≤ n then l.take n.toNat else l.take ((l.length : Int) + n).toNat

/-- The page loop of `search_company`, returning the accumulated record
list together with the pages actually fetched.  A transport failure breaks
immediately; after each page the loop stops if the accumulation has reached
`results_per_company`, then if the page yielded no new records; otherwise
(after the inter-request delay, which has no observable effect here) it
continues with the next page. -/
def searchLoop (fetch : Str → Int → PageOutcome) (company : Str)
    (results_per_company : Int) :
    List Int → List ResultRecord → List Str → List ResultRecord × List Int
  | [], acc, _ => (acc, [])
  | page :: rest, acc, seen =>
    match fetch company page with
    | .fail => (acc, [page])
    | .ok page_results =>
      let d := dedupPage seen page_results
      let acc := acc ++ d.1
      if results_per_company ≤ (acc.length : Int) then (acc, [page])
      else if d.1 = [] then (acc, [page])
      else
        let r := searchLoop fetch company results_per_company rest acc d.2
        (r.1, page :: r.2)

/-- `LinkedInCompanySearcher.search_company`: run the page loop from an
empty accumulation and seen set, then truncate with `all_results[:results_per_company]`. -/
def search_company (fetch : Str → Int → PageOutcome) (company : Str)
    (results_per_company start_page max_pages : Int) : List ResultRecord :=
  pySlice results_per_company
    (searchLoop fetch company results_per_company
      (iter_pages start_page max_pages) [] []).1

/-- Python `str.strip()` on a name (modelled over ASCII whitespace). -/
def isPyWs (c : Char) : Bool :=
  c = ' ' || c = '\t' || c = '\n' || c = '\r' || c = '\x0b' || c = '\x0c'

def stripName (l : Str) : Str :=
  ((l.dropWhile isPyWs).reverse.dropWhile isPyWs).reverse

/-- `LinkedInCompanySearcher.search_for_companies`: strip each name, skip
empty ones, run `search_company` per name and concatenate in input order.
The modelled `search_company` is total, so the per-name `except` clause has
no effect in the embedding. -/
def search_for_companies (fetch : Str → Int → PageOutcome)
    (companies : List Str) (results_per_company start_page max_pages : Int) :
    List ResultRecord :=
  match companies with
  | [] => []
  | c :: rest =>
    let c := stripName c
    if c = [] then
      search_for_companies fetch rest results_per_company start_page max_pages
    else
      search_company fetch c results_per_company start_page max_pages ++
        search_for_companies fetch rest results_per_company start_page max_pages

/-! ### `LinkedInCompanySearcher.__init__` configuration construction

Settings values are dynamically typed (loaded from JSON); `PyVal` models
the value types that can occur.  Python floats are modelled as rationals,
which is adequate because the code performs no float arithmetic, only the
`float(...)` conversion. -/

inductive PyVal where
  | str (s : Str)
  | int (n : Int)
  | float (q : Rat)
  | none_
  /-- A JSON array value; its elements are elided because no modelled
  operation inspects them (`int()`/`float()` reject any list). -/
  | list
deriving DecidableEq

/-- Python `int(x)`: identity on ints, truncation toward zero on floats,
digit-string parsing (with surrounding whitespace and an optional sign) on
strings, `TypeError`/`ValueError` otherwise. -/
def parseIntDigits : Str → Option Int
  | [] => none
  | l => if l.all (fun c => '0' ≤ c && c ≤ '9') then
      some (l.foldl (fun acc c => acc * 10 + ((c.toNat : Int) - 48)) 0)
    else none

def pyIntOfStr (l : Str) : Except Str Int :=
  let t := stripName l
  match t with
  | '-' :: ds => match parseIntDigits ds with
    | some n => .ok (-n)
    | none => .error (cl "ValueError: invalid literal for int()")
  | '+' :: ds => match parseIntDigits ds with
    | some n => .ok n
    | none => .error (cl "ValueError: invalid literal for int()")
  | ds => match parseIntDigits ds with
    | some n => .ok n
    | none => .error (cl "ValueError: invalid literal for int()")

def pyToInt : PyVal → Except Str Int
  | .int n => .ok n
  | .float q => .ok (if q < 0 then -((-q).floor) else q.floor)
  | .str s => pyIntOfStr s
  | .none_ => .error (cl "TypeError: int() argument must not be None")
  | .list => .error (cl "TypeError: int() argument must not be a list")

/-- Python `float(x)` string conversion, restricted to the decimal forms
the settings use: integer strings and `a.b` decimals (exponent and other
exotic literal forms are outside the modelled fragment); everything else
raises `ValueError`. -/
def pyFloatOfStr (l : Str) : Except Str Rat :=
  let t := stripName l
  match splitFirst '.' t with
  | some (a, b) =>
    match pyIntOfStr a, parseIntDigits b with
    | .ok n, some f =>
      let scale : Int := (10 : Int) ^ b.length
      let num := if n < 0 || a.take 1 = ['-'] then n * scale - f else n * scale + f
      .ok ((num : Rat) / (scale : Rat))
    | _, _ => .error (cl "ValueError: could not convert string to float")
  | none =>
    match pyIntOfStr t with
    | .ok n => .ok (n : Rat)
    | .error _ => .error (cl "ValueError: could not convert string to float")

def pyToFloat : PyVal → Except Str Rat
  | .int n => .ok (n : Rat)
  | .float q => .ok q
  | .str s => pyFloatOfStr s
  | .none_ => .error (cl "TypeError: float() argument must not be None")
  | .list => .error (cl "TypeError: float() argument must not be a list")

/-- The constructed configuration.  The three string-typed fields are
stored exactly as found in the settings mapping — the dataclass annotations
are not enforced at runtime — while the two numeric fields go through
`int(...)` / `float(...)`. -/
structure SearchConfig where
  search_engine : PyVal
  query_template : PyVal
  request_timeout_seconds : Int
  request_delay_seconds : Rat
  user_agent : PyVal
deriving DecidableEq

def settingsGet (settings : List (Str × PyVal)) (key : Str) (dflt : PyVal) : PyVal :=
  match settings.find? (fun p => p.1 = key) with
  | some p => p.2
  | none => dflt

/-- The `SearchConfig(...)` construction in `LinkedInCompanySearcher.__init__`:
defaults overlaid with caller-supplied settings; `int()` on the timeout and
`float()` on the delay raise before the object is built (Python evaluates
the arguments in order). -/
def initConfig (settings : List (Str × PyVal)) : Except Str SearchConfig := do
  let se := settingsGet settings (cl "search_engine")
    (.str (cl "https://www.bing.com/search"))
  let qt := settingsGet settings (cl "query_template")
    (.str (cl "site:linkedin.com/company {company}"))
  let t ← pyToInt (settingsGet settings (cl "request_timeout_seconds") (.int 10))
  let d ← pyToFloat (settingsGet settings (cl "request_delay_seconds") (.float 1))
  let ua := settingsGet settings (cl "user_agent")
    (.str (cl "Mozilla/5.0 (compatible; LinkedInCompanyURLMassFinder/1.0)"))
  return ⟨se, qt, t, d, ua⟩

/-! ## Supporting lemmas -/

theorem head_dropWhile_false (p : Char → Bool) :
    ∀ (l : Str) (c : Char), (l.dropWhile p).head? = some c → p c = false := by
  intro l
  induction l with
  | nil => intro c h; simp at h
  | cons x xs ih =>
    intro c h
    by_cases hx : p x
    · rw [List.dropWhile_cons_of_pos hx] at h
      exact ih c h
    · rw [List.dropWhile_cons_of_neg hx] at h
      simp at h
      rw [← h]
      exact Bool.of_not_eq_true hx

theorem rstripSlash_getLast (l : Str) : (rstripSlash l).getLast? ≠ some '/' := by
  unfold rstripSlash
  split_ifs with h
  · intro hc
    rw [List.getLast?_reverse] at hc
    have := head_dropWhile_false (fun c => c = '/') l.reverse '/' hc
    simp at this
  · intro hc
    exact absurd hc h

/-! ## Claim theorems -/

/-- C8: `calculate_offset(page, pageSize)` equals `(page-1)*pageSize`
whenever both arguments are at least 1, and an out-of-range argument is
silently replaced by 1 (the function is total, so the call never fails). -/
theorem calculate_offset_clamped (page per_page : Int) :
    (1 ≤ page → 1 ≤ per_page →
      calculate_offset page per_page = (page - 1) * per_page) ∧
    (page < 1 → calculate_offset page per_page = calculate_offset 1 per_page) ∧
    (per_page < 1 → calculate_offset page per_page = calculate_offset page 1) := by
  refine ⟨fun h1 h2 => ?_, fun h1 => ?_, fun h1 => ?_⟩ <;>
    simp only [calculate_offset] <;> split_ifs <;> first | rfl | omega

theorem calculate_offset_clamped_witness :
    calculate_offset 3 10 = 20 ∧
    calculate_offset (-5) 10 = calculate_offset 1 10 ∧
    calculate_offset 3 0 = calculate_offset 3 1 := by
  refine ⟨?_, ?_, ?_⟩
  · rw [(calculate_offset_clamped 3 10).1 (by decide) (by decide)]; decide
  · exact (calculate_offset_clamped (-5) 10).2.1 (by decide)
  · exact (calculate_offset_clamped 3 0).2.2 (by decide)

/-- C10: the host test is plain substring containment, not an exact-domain
or suffix match: the absolute URL with foreign host
`linkedin.com.evil.example`, which merely contains `linkedin.com` as a
substring, is accepted and returned canonically on that host. -/
theorem host_substring_containment :
    normalize_linkedin_url (cl "https://linkedin.com.evil.example/company/acme") =
      some (cl "https://linkedin.com.evil.example/company/acme") ∧
    cl "linkedin.com.evil.example" ≠ linkedinDomain := by
  constructor
  · decide
  · decide

/-- C6 (counterexample): the claim says normalization strips exactly one
trailing path separator, which at input
`https://www.linkedin.com/company/acme//` (query/fragment stripping is the
identity here) would produce `https://www.linkedin.com/company/acme/`; the
code's `rstrip("/")` strips both slashes instead. -/
def stripOneTrailingSlash (l : Str) : Str :=
  if l.getLast? = some '/' then l.dropLast else l

theorem normalize_trailing_sep_cex :
    normalize_linkedin_url (cl "https://www.linkedin.com/company/acme//") =
      some (cl "https://www.linkedin.com/company/acme") ∧
    cl "https://www.linkedin.com/company/acme" ≠
      stripOneTrailingSlash (cl "https://www.linkedin.com/company/acme//") := by
  constructor
  · decide
  · decide

theorem acceptParsed_getLast (P : ParseResult) (s : Str)
    (h : acceptParsed P = some s) : s.getLast? ≠ some '/' := by
  unfold acceptParsed at h
  split at h
  · exact absurd h (by simp)
  · split at h
    · exact absurd h (by simp)
    · simp only [Option.some.injEq] at h
      rw [← h]
      exact rstripSlash_getLast _

/-- C6 (amended): normalization strips all trailing path separators from
the accepted URL (at least the one, when present): no returned canonical
URL ends with `/`, so a path ending in a single separator loses exactly
that one and `.../company/acme/` and `.../company/acme` normalize
identically. -/
theorem normalize_strips_all_trailing_seps (raw s : Str)
    (h : normalize_linkedin_url raw = some s) : s.getLast? ≠ some '/' := by
  unfold normalize_linkedin_url at h
  split at h
  · exact absurd h (by simp)
  · exact acceptParsed_getLast _ s h

theorem normalize_strips_all_trailing_seps_witness :
    normalize_linkedin_url (cl "https://www.linkedin.com/company/acme/") =
      some (cl "https://www.linkedin.com/company/acme") ∧
    (cl "https://www.linkedin.com/company/acme").getLast? ≠ some '/' ∧
    normalize_linkedin_url (cl "https://www.linkedin.com/company/acme/") =
      normalize_linkedin_url (cl "https://www.linkedin.com/company/acme") :=
  ⟨by decide,
    normalize_strips_all_trailing_seps (cl "https://www.linkedin.com/company/acme/")
      (cl "https://www.linkedin.com/company/acme") (by decide),
    by decide⟩

/-- C2 (counterexample): the cap bound does not hold for every requested
`resultsPerCompany`.  With `resultsPerCompany = -1` the loop breaks after
the first page (any length is `>= -1`) and the Python slice
`all_results[:-1]` keeps `len - 1` records, so the returned count (here 0)
is not `≤ -1`. -/
theorem search_company_cap_cex :
    search_company
      (fun _ _ => PageOutcome.ok
        [⟨cl "Acme", cl "https://www.linkedin.com/company/acme", cl "Acme"⟩])
      (cl "Acme") (-1) 1 1 = [] ∧
    ¬ (((search_company
      (fun _ _ => PageOutcome.ok
        [⟨cl "Acme", cl "https://www.linkedin.com/company/acme", cl "Acme"⟩])
      (cl "Acme") (-1) 1 1).length : Int) ≤ -1) := by
  constructor
  · decide
  · decide

/-- C2 (amended): for every non-negative requested `resultsPerCompany`
(in particular on the spec's declared domain `≥ 1`), the number of records
returned by `search_company` is at most the requested cap: the final
`all_results[:results_per_company]` slice truncates to at most that many
records.  (Negative caps fall under Python's negative-slice semantics and
violate the bound, see the counterexample.) -/
theorem search_company_cap_nonneg (fetch : Str → Int → PageOutcome)
    (company : Str) (cap sp mp : Int) (h : 0 ≤ cap) :
    ((search_company fetch company cap sp mp).length : Int) ≤ cap := by
  unfold search_company pySlice
  rw [if_pos h]
  have h2 := Int.toNat_of_nonneg h
  simp only [List.length_take]
  omega

theorem search_company_cap_nonneg_witness :
    (0:Int) ≤ 2 ∧
    ((search_company (fun _ _ => PageOutcome.ok []) (cl "Acme") 2 1 1).length : Int) ≤ 2 :=
  ⟨by decide, search_company_cap_nonneg _ _ 2 1 1 (by decide)⟩

/-- C9 (counterexample): a settings mapping whose endpoint-URL value has an
invalid type (an integer) does not fail fast: construction succeeds and the
ill-typed value is stored unvalidated in the configuration. -/
theorem initConfig_bad_string_type_cex :
    (initConfig [(cl "search_engine", PyVal.int 5)]).isOk = true ∧
    (match initConfig [(cl "search_engine", PyVal.int 5)] with
     | .ok c => c.search_engine
     | .error _ => PyVal.none_) = PyVal.int 5 := by
  constructor
  · decide
  · decide

/-- C9 (amended): only the numeric settings are validated: construction of
the configuration fails (before any fetching) exactly when `int()` rejects
the timeout value or `float()` rejects the delay value; the endpoint URL,
query template and header value are stored without any type check, so an
invalid type there is silently accepted rather than failing fast. -/
theorem initConfig_numeric_only_validation (settings : List (Str × PyVal)) :
    (initConfig settings).isOk =
      ((pyToInt (settingsGet settings (cl "request_timeout_seconds") (.int 10))).isOk &&
       (pyToFloat (settingsGet settings (cl "request_delay_seconds") (.float 1))).isOk) := by
  unfold initConfig
  cases h1 : pyToInt (settingsGet settings (cl "request_timeout_seconds") (.int 10)) <;>
    cases h2 : pyToFloat (settingsGet settings (cl "request_delay_seconds") (.float 1)) <;>
      simp [h1, h2, Except.isOk, Except.toBool, Bind.bind, Except.bind, pure, Except.pure]

/-- C5 (counterexample): the claim as stated is false of the program: the
relative target `httpx/page?q=https://www.linkedin.com/company/acme` is
not an absolute URL (it parses with no scheme) and its host does not
mention `linkedin.com`, so the claim requires its `q` parameter to be
unwrapped and the candidate re-parsed and accepted; but the code's guard
is `raw_url.startswith("http")`, which is true here, so the unwrap branch
is skipped and normalization returns nothing instead. -/
theorem redirect_wrapper_unwrap_cex :
    (urlparse (cl "httpx/page?q=https://www.linkedin.com/company/acme")).scheme
      = [] ∧
    inStr linkedinDomain
      (urlparse (cl "httpx/page?q=https://www.linkedin.com/company/acme")).netloc
      = false ∧
    getCandidate (parse_qsl
      (urlparse (cl "httpx/page?q=https://www.linkedin.com/company/acme")).query)
      = some (cl "https://www.linkedin.com/company/acme") ∧
    acceptParsed (urlparse (cl "https://www.linkedin.com/company/acme")) =
      some (cl "https://www.linkedin.com/company/acme") ∧
    normalize_linkedin_url
      (cl "httpx/page?q=https://www.linkedin.com/company/acme") = none := by
  refine ⟨by decide, by decide, by decide, by decide, by decide⟩

/-- C5 (amended): for every raw link whose parsed host does not mention
`linkedin.com` and which does not start with `http` (the code's actual
guard, in place of the claim's "is not an absolute URL"), normalization
parses the link's query parameters and, when a `q` or `url` parameter is
present, re-parses its first value as the candidate URL (rejecting when
neither is present); in particular the raw link
`/url?q=https://www.linkedin.com/company/acme/&extra=1` normalizes to
`https://www.linkedin.com/company/acme`. -/
theorem redirect_wrapper_unwrap (raw : Str)
    (h1 : inStr linkedinDomain (urlparse raw).netloc = false)
    (h2 : startsWithHttp raw = false) :
    normalize_linkedin_url raw =
      (match getCandidate (parse_qsl (urlparse raw).query) with
       | some cand => acceptParsed (urlparse cand)
       | none => none) ∧
    normalize_linkedin_url (cl "/url?q=https://www.linkedin.com/company/acme/&extra=1") =
      some (cl "https://www.linkedin.com/company/acme") := by
  constructor
  · by_cases hr : raw = []
    · subst hr
      decide
    · unfold normalize_linkedin_url
      rw [if_neg hr]
      simp only [h1, h2, Bool.not_false, Bool.and_self, if_true]
      cases hc : getCandidate (parse_qsl (urlparse raw).query) <;>
        simp [hc, acceptParsed, h1]
  · decide

theorem redirect_wrapper_unwrap_witness :
    inStr linkedinDomain
      (urlparse (cl "/url?q=https://www.linkedin.com/company/acme/&extra=1")).netloc = false ∧
    startsWithHttp (cl "/url?q=https://www.linkedin.com/company/acme/&extra=1") = false ∧
    normalize_linkedin_url (cl "/url?q=https://www.linkedin.com/company/acme/&extra=1") =
      (match getCandidate (parse_qsl
          (urlparse (cl "/url?q=https://www.linkedin.com/company/acme/&extra=1")).query) with
       | some cand => acceptParsed (urlparse cand)
       | none => none) :=
  ⟨by decide, by decide,
    (redirect_wrapper_unwrap (cl "/url?q=https://www.linkedin.com/company/acme/&extra=1")
      (by decide) (by decide)).1⟩

/-! ## Search-loop stream lemmas -/

def okRecords : PageOutcome → List ResultRecord
  | .ok rs => rs
  | .fail => []

/-- The in-order concatenation of the records delivered for a list of
pages. -/
def pageStream (fetch : Str → Int → PageOutcome) (company : Str)
    (pages : List Int) : List ResultRecord :=
  (pages.map (fun p => okRecords (fetch company p))).flatten

/-- Spec-side first-seen filter: keep each record whose link is nonempty
and has not occurred earlier in the stream (nor in `seen`), in stream
order. -/
def keepFirstLinks (seen : List Str) : List ResultRecord → List ResultRecord
  | [] => []
  | r :: rs =>
    if r.link = [] then keepFirstLinks seen rs
    else if r.link ∈ seen then keepFirstLinks seen rs
    else r :: keepFirstLinks (r.link :: seen) rs

theorem dedupPage_fst :
    ∀ (rs : List ResultRecord) (seen : List Str),
      (dedupPage seen rs).1 = keepFirstLinks seen rs := by
  intro rs
  induction rs with
  | nil => intro seen; rfl
  | cons r rest ih =>
    intro seen
    unfold dedupPage keepFirstLinks
    split_ifs with h1 h2
    · exact ih seen
    · exact ih seen
    · simp [ih (r.link :: seen)]

theorem dedupPage_cons (seen : List Str) (r : ResultRecord)
    (rest : List ResultRecord) :
    dedupPage seen (r :: rest) =
      if r.link = [] then dedupPage seen rest
      else if r.link ∈ seen then dedupPage seen rest
      else (r :: (dedupPage (r.link :: seen) rest).1,
            (dedupPage (r.link :: seen) rest).2) := rfl

theorem dedupPage_append :
    ∀ (rs rs' : List ResultRecord) (seen : List Str),
      dedupPage seen (rs ++ rs') =
        ((dedupPage seen rs).1 ++ (dedupPage (dedupPage seen rs).2 rs').1,
         (dedupPage (dedupPage seen rs).2 rs').2) := by
  intro rs
  induction rs with
  | nil => intro rs' seen; simp [dedupPage]
  | cons r rest ih =>
    intro rs' seen
    simp only [List.cons_append]
    rw [dedupPage_cons, dedupPage_cons seen r rest]
    split_ifs with h1 h2
    · exact ih rs' seen
    · exact ih rs' seen
    · simp [ih rs' (r.link :: seen)]

theorem keepFirstLinks_link_notin :
    ∀ (rs : List ResultRecord) (seen : List Str) (r : ResultRecord),
      r ∈ keepFirstLinks seen rs → r.link ∉ seen := by
  intro rs
  induction rs with
  | nil => intro seen r h; simp [keepFirstLinks] at h
  | cons x rest ih =>
    intro seen r h
    unfold keepFirstLinks at h
    split_ifs at h with h1 h2
    · exact ih seen r h
    · exact ih seen r h
    · rcases List.mem_cons.mp h with hr | hr
      · subst hr; exact fun hc => h2 hc
      · intro hc
        exact ih (x.link :: seen) r hr (List.mem_cons_of_mem _ hc)

theorem keepFirstLinks_pairwise :
    ∀ (rs : List ResultRecord) (seen : List Str),
      (keepFirstLinks seen rs).Pairwise (fun a b => a.link ≠ b.link) := by
  intro rs
  induction rs with
  | nil => intro seen; simp [keepFirstLinks]
  | cons x rest ih =>
    intro seen
    unfold keepFirstLinks
    split_ifs with h1 h2
    · exact ih seen
    · exact ih seen
    · refine List.Pairwise.cons ?_ (ih (x.link :: seen))
      intro b hb
      have := keepFirstLinks_link_notin rest (x.link :: seen) b hb
      intro hc
      exact this (hc ▸ List.mem_cons_self _ _)

theorem searchLoop_cons (fetch : Str → Int → PageOutcome) (company : Str)
    (cap p : Int) (rest : List Int) (acc : List ResultRecord)
    (seen : List Str) :
    searchLoop fetch company cap (p :: rest) acc seen =
      match fetch company p with
      | .fail => (acc, [p])
      | .ok page_results =>
        if cap ≤ (((acc ++ (dedupPage seen page_results).1).length : Int)) then
          (acc ++ (dedupPage seen page_results).1, [p])
        else if (dedupPage seen page_results).1 = [] then
          (acc ++ (dedupPage seen page_results).1, [p])
        else
          ((searchLoop fetch company cap rest
              (acc ++ (dedupPage seen page_results).1)
              (dedupPage seen page_results).2).1,
           p :: (searchLoop fetch company cap rest
              (acc ++ (dedupPage seen page_results).1)
              (dedupPage seen page_results).2).2) := rfl

theorem searchLoop_stream (fetch : Str → Int → PageOutcome) (company : Str)
    (cap : Int) :
    ∀ (pages : List Int) (acc : List ResultRecord) (seen : List Str),
      ∃ k, k ≤ pages.length ∧
        (searchLoop fetch company cap pages acc seen).1 =
          acc ++ (dedupPage seen (pageStream fetch company (pages.take k))).1 := by
  intro pages
  induction pages with
  | nil =>
    intro acc seen
    exact ⟨0, by simp, by simp [searchLoop, pageStream, dedupPage]⟩
  | cons p rest ih =>
    intro acc seen
    rw [searchLoop_cons]
    cases hf : fetch company p with
    | fail => exact ⟨0, by simp, by simp [pageStream, dedupPage]⟩
    | ok rs =>
      dsimp only
      by_cases hcap : cap ≤ (((acc ++ (dedupPage seen rs).1).length : Int))
      · refine ⟨1, by simp, ?_⟩
        rw [if_pos hcap]
        simp [pageStream, okRecords, hf]
      · by_cases hnew : (dedupPage seen rs).1 = []
        · refine ⟨1, by simp, ?_⟩
          rw [if_neg hcap, if_pos hnew]
          simp [pageStream, okRecords, hf, hnew]
        · obtain ⟨k, hk, heq⟩ := ih (acc ++ (dedupPage seen rs).1) (dedupPage seen rs).2
          refine ⟨k + 1, by simpa using hk, ?_⟩
          rw [if_neg hcap, if_neg hnew]
          show (searchLoop fetch company cap rest
              (acc ++ (dedupPage seen rs).1) (dedupPage seen rs).2).1 = _
          rw [heq]
          simp only [List.take_succ_cons, pageStream, List.map_cons,
            List.flatten_cons, okRecords, hf]
          rw [dedupPage_append]
          simp

theorem pySlice_sublist (n : Int) (l : List α) : (pySlice n l).Sublist l := by
  unfold pySlice
  split_ifs <;> exact List.take_sublist _ _

/-- C1: for every name and every sequence of fetched pages, the record
list returned by `search_company` has pairwise-distinct link values, and it
is a slice of the first-seen filter of the in-order concatenation of the
fetched pages' records: each accepted record is the first occurrence of its
link across pages, in page order with within-page document order
preserved. -/
theorem search_company_dedup_first_seen (fetch : Str → Int → PageOutcome)
    (company : Str) (cap sp mp : Int) :
    (search_company fetch company cap sp mp).Pairwise
      (fun a b => a.link ≠ b.link) ∧
    ∃ k, search_company fetch company cap sp mp =
      pySlice cap (keepFirstLinks []
        (pageStream fetch company ((iter_pages sp mp).take k))) := by
  obtain ⟨k, _, heq⟩ := searchLoop_stream fetch company cap (iter_pages sp mp) [] []
  have hsc : search_company fetch company cap sp mp =
      pySlice cap (keepFirstLinks []
        (pageStream fetch company ((iter_pages sp mp).take k))) := by
    unfold search_company
    rw [heq, dedupPage_fst]
    simp
  constructor
  · rw [hsc]
    exact ((keepFirstLinks_pairwise _ []).sublist (pySlice_sublist _ _))
  · exact ⟨k, hsc⟩

/-- C3: after an `ok` page the loop's stopping conditions are checked in
priority order — reaching the cap stops with the page's new records
appended; otherwise a page with zero post-dedup new records stops;
otherwise the loop continues into the remaining pages — and (scenario D)
when pages 1 and 2 both return the same single profile link and page 3
would return a fresh one, the loop stops after page 2 with exactly that one
accumulated record, never fetching page 3. -/
theorem search_company_stopping_priority :
    (∀ (fetch : Str → Int → PageOutcome) (company : Str) (cap p : Int)
        (rest : List Int) (acc : List ResultRecord) (seen : List Str)
        (rs : List ResultRecord), fetch company p = .ok rs →
      (cap ≤ (((acc ++ (dedupPage seen rs).1).length : Int)) →
        searchLoop fetch company cap (p :: rest) acc seen =
          (acc ++ (dedupPage seen rs).1, [p])) ∧
      (¬ cap ≤ (((acc ++ (dedupPage seen rs).1).length : Int)) →
        (dedupPage seen rs).1 = [] →
        searchLoop fetch company cap (p :: rest) acc seen =
          (acc ++ (dedupPage seen rs).1, [p])) ∧
      (¬ cap ≤ (((acc ++ (dedupPage seen rs).1).length : Int)) →
        (dedupPage seen rs).1 ≠ [] →
        searchLoop fetch company cap (p :: rest) acc seen =
          ((searchLoop fetch company cap rest (acc ++ (dedupPage seen rs).1)
              (dedupPage seen rs).2).1,
           p :: (searchLoop fetch company cap rest
              (acc ++ (dedupPage seen rs).1) (dedupPage seen rs).2).2))) ∧
    search_company
      (fun _ p => if p = 1 then PageOutcome.ok
          [⟨cl "Acme Inc", cl "https://www.linkedin.com/company/acme", cl "Acme"⟩]
        else if p = 2 then PageOutcome.ok
          [⟨cl "Acme Inc", cl "https://www.linkedin.com/company/acme", cl "Acme"⟩]
        else PageOutcome.ok
          [⟨cl "Other", cl "https://www.linkedin.com/company/other", cl "Acme"⟩])
      (cl "Acme") 5 1 3 =
      [⟨cl "Acme Inc", cl "https://www.linkedin.com/company/acme", cl "Acme"⟩] ∧
    (searchLoop
      (fun _ p => if p = 1 then PageOutcome.ok
          [⟨cl "Acme Inc", cl "https://www.linkedin.com/company/acme", cl "Acme"⟩]
        else if p = 2 then PageOutcome.ok
          [⟨cl "Acme Inc", cl "https://www.linkedin.com/company/acme", cl "Acme"⟩]
        else PageOutcome.ok
          [⟨cl "Other", cl "https://www.linkedin.com/company/other", cl "Acme"⟩])
      (cl "Acme") 5 (iter_pages 1 3) [] []).2 = [1, 2] := by
  refine ⟨?_, by decide, by decide⟩
  intro fetch company cap p rest acc seen rs hf
  refine ⟨fun hcap => ?_, fun hcap hnew => ?_, fun hcap hnew => ?_⟩ <;>
    rw [searchLoop_cons, hf] <;> dsimp only
  · rw [if_pos hcap]
  · rw [if_neg hcap, if_pos hnew]
  · rw [if_neg hcap, if_neg hnew]

theorem search_company_stopping_priority_witness :
    searchLoop (fun _ _ => PageOutcome.ok []) (cl "Acme") 5 [1] [] [] =
      ([], [1]) := by
  have h := ((search_company_stopping_priority.1
    (fun _ _ => PageOutcome.ok []) (cl "Acme") 5 1 [] [] [] [] rfl).2.1
      (by decide) (by decide))
  simpa using h

/-- C4: a transport failure on any page stops the per-name loop at once —
no retry, no later page is visited, the records accumulated so far are
returned (then capped) — so a failure on the first page yields an empty
result list for that name, and in `search_for_companies` the names after
it are processed exactly as if the failed name were absent. -/
theorem transport_failure_stops_loop :
    (∀ (fetch : Str → Int → PageOutcome) (company : Str) (cap p : Int)
        (rest : List Int) (acc : List ResultRecord) (seen : List Str),
      fetch company p = .fail →
      searchLoop fetch company cap (p :: rest) acc seen = (acc, [p])) ∧
    (∀ (fetch : Str → Int → PageOutcome) (beta : Str) (others : List Str)
        (cap sp mp : Int),
      stripName beta ≠ [] →
      fetch (stripName beta) (if sp < 1 then 1 else sp) = .fail →
      search_company fetch (stripName beta) cap sp mp = [] ∧
      search_for_companies fetch (beta :: others) cap sp mp =
        search_for_companies fetch others cap sp mp) := by
  have hstep : ∀ (fetch : Str → Int → PageOutcome) (company : Str)
      (cap p : Int) (rest : List Int) (acc : List ResultRecord)
      (seen : List Str), fetch company p = .fail →
      searchLoop fetch company cap (p :: rest) acc seen = (acc, [p]) := by
    intro fetch company cap p rest acc seen hf
    rw [searchLoop_cons, hf]
  refine ⟨hstep, ?_⟩
  intro fetch beta others cap sp mp hb hf
  have hpages : ∃ rest, iter_pages sp mp = (if sp < 1 then 1 else sp) :: rest := by
    unfold iter_pages
    dsimp only
    have h1 : (1:Int) ≤ (if mp < 1 then 1 else mp) := by split_ifs <;> omega
    obtain ⟨n, hn⟩ : ∃ n, (if mp < 1 then 1 else mp).toNat = n + 1 := by
      refine ⟨(if mp < 1 then 1 else mp).toNat - 1, ?_⟩
      omega
    rw [hn, List.range_succ_eq_map]
    refine ⟨List.map ((fun (i : Nat) => (if sp < 1 then 1 else sp) + (i : Int)) ∘
      Nat.succ) (List.range n), ?_⟩
    simp
  obtain ⟨rest, hpages⟩ := hpages
  have hempty : search_company fetch (stripName beta) cap sp mp = [] := by
    unfold search_company
    rw [hpages, hstep fetch (stripName beta) cap _ rest [] [] hf]
    unfold pySlice
    split_ifs <;> simp
  refine ⟨hempty, ?_⟩
  show (let c := stripName beta
    if c = [] then search_for_companies fetch others cap sp mp
    else search_company fetch c cap sp mp ++
      search_for_companies fetch others cap sp mp) =
    search_for_companies fetch others cap sp mp
  rw [if_neg hb, hempty]
  simp

theorem transport_failure_stops_loop_witness :
    searchLoop (fun _ _ => PageOutcome.fail) (cl "Beta") 5 [1, 2] [] [] =
      ([], [1]) ∧
    search_for_companies (fun _ _ => PageOutcome.fail)
      [cl "Beta", cl "Gamma"] 5 1 2 =
      search_for_companies (fun _ _ => PageOutcome.fail) [cl "Gamma"] 5 1 2 :=
  ⟨transport_failure_stops_loop.1 (fun _ _ => PageOutcome.fail)
      (cl "Beta") 5 1 [2] [] [] rfl,
   (transport_failure_stops_loop.2 (fun _ _ => PageOutcome.fail)
      (cl "Beta") [cl "Gamma"] 5 1 2 (by decide) rfl).2⟩

/-! ## Lemmas for the idempotence analysis (C7) -/

theorem splitFirst_not_mem_left (c : Char) :
    ∀ (l a b : Str), splitFirst c l = some (a, b) → c ∉ a := by
  intro l
  induction l with
  | nil => intro a b h; simp [splitFirst] at h
  | cons x xs ih =>
    intro a b h
    by_cases hx : x = c
    · simp only [splitFirst, if_pos hx, Option.some.injEq, Prod.mk.injEq] at h
      rw [← h.1]
      simp
    · simp only [splitFirst, if_neg hx, Option.map_eq_some'] at h
      obtain ⟨⟨p1, p2⟩, hp, hv⟩ := h
      cases hv
      intro hc
      rcases List.mem_cons.mp hc with hc | hc
      · exact hx hc.symm
      · exact ih p1 p2 hp hc

theorem splitFirst_eq_none_iff (c : Char) :
    ∀ (l : Str), splitFirst c l = none ↔ c ∉ l := by
  intro l
  induction l with
  | nil => simp [splitFirst]
  | cons x xs ih =>
    by_cases hx : x = c
    · simp [splitFirst, hx]
    · simp only [splitFirst, if_neg hx, Option.map_eq_none']
      rw [List.mem_cons]
      constructor
      · intro h hc
        rcases hc with hc | hc
        · exact hx hc.symm
        · exact (ih.mp h) hc
      · intro h
        exact ih.mpr (fun hc => h (Or.inr hc))

theorem splitFirst_append (c : Char) (a b : Str) (ha : c ∉ a) :
    splitFirst c (a ++ c :: b) = some (a, b) := by
  induction a with
  | nil => simp [splitFirst]
  | cons x xs ih =>
    have hx : x ≠ c := fun hc => ha (hc ▸ List.mem_cons_self _ _)
    have ih2 := ih (fun hc => ha (List.mem_cons_of_mem _ hc))
    show (if x = c then some ([], xs ++ c :: b)
      else (splitFirst c (xs ++ c :: b)).map (fun p => (x :: p.1, p.2))) =
        some (x :: xs, b)
    rw [if_neg hx, ih2]
    rfl

theorem splitLastSlash_eq_some (l a b : Str)
    (h : splitLastSlash l = some (a, b)) : l = a ++ '/' :: b ∧ '/' ∉ b := by
  unfold splitLastSlash at h
  cases hsf : splitFirst '/' l.reverse with
  | none => rw [hsf] at h; simp at h
  | some p =>
    obtain ⟨p1, p2⟩ := p
    rw [hsf] at h
    simp only [Option.some.injEq, Prod.mk.injEq] at h
    obtain ⟨h1, h2⟩ := h
    subst h1; subst h2
    have heq := splitFirst_eq_some '/' l.reverse p1 p2 hsf
    have hnm := splitFirst_not_mem_left '/' l.reverse p1 p2 hsf
    constructor
    · have := congrArg List.reverse heq
      simpa using this
    · simpa using hnm

theorem splitLastSlash_append (a b : Str) (hb : '/' ∉ b) :
    splitLastSlash (a ++ '/' :: b) = some (a, b) := by
  unfold splitLastSlash
  have hrev : (a ++ '/' :: b).reverse = b.reverse ++ '/' :: a.reverse := by
    simp
  rw [hrev, splitFirst_append '/' b.reverse a.reverse (by simpa using hb)]
  simp

theorem splitLastSlash_eq_none_iff (l : Str) :
    splitLastSlash l = none ↔ '/' ∉ l := by
  unfold splitLastSlash
  cases hsf : splitFirst '/' l.reverse with
  | none =>
    have := (splitFirst_eq_none_iff '/' l.reverse).mp hsf
    simp only [true_iff]
    simpa using this
  | some p =>
    have hin : '/' ∈ l := by
      have heq := splitFirst_eq_some '/' l.reverse p.1 p.2 (by rw [hsf])
      have h2 : '/' ∈ l.reverse := by rw [heq]; simp
      simpa using h2
    constructor
    · intro h; simp at h
    · intro h; exact absurd hin h

theorem splitLastSlash_isSome (l : Str) (h : '/' ∈ l) :
    ∃ a b, splitLastSlash l = some (a, b) := by
  cases hs : splitLastSlash l with
  | none => exact absurd ((splitLastSlash_eq_none_iff l).mp hs) (by simpa using h)
  | some p => exact ⟨p.1, p.2, rfl⟩

theorem inStr_exists (n : Str) :
    ∀ (h : Str), inStr n h = true → ∃ x y, h = x ++ n ++ y := by
  intro h
  induction h with
  | nil =>
    intro hh
    unfold inStr at hh
    cases n with
    | nil => exact ⟨[], [], rfl⟩
    | cons c cs => simp [List.isPrefixOf] at hh
  | cons a t ih =>
    intro hh
    unfold inStr at hh
    rcases Bool.or_eq_true_iff.mp hh with hp | hr
    · obtain ⟨y, hy⟩ := List.isPrefixOf_iff_prefix.mp hp
      exact ⟨[], y, by simp [← hy]⟩
    · obtain ⟨x, y, hxy⟩ := ih hr
      exact ⟨a :: x, y, by simp [hxy]⟩

theorem inStr_sub (n h : Str) (hh : inStr n h = true) :
    ∀ x ∈ n, x ∈ h := by
  obtain ⟨s, t, hst⟩ := inStr_exists n h hh
  intro x hx
  rw [hst]
  simp [hx]

theorem inStr_ne_nil (n h : Str) (hh : inStr n h = true) (hn : n ≠ []) :
    h ≠ [] := by
  obtain ⟨s, t, hst⟩ := inStr_exists n h hh
  rw [hst]
  cases n with
  | nil => exact absurd rfl hn
  | cons c cs => simp

theorem contains_iff_mem (l : Str) (c : Char) : l.contains c = true ↔ c ∈ l := by
  rw [List.contains_eq_any_beq]
  simp

theorem rstripSlash_eq_of_getLast (l : Str) (h : l.getLast? ≠ some '/') :
    rstripSlash l = l := by
  unfold rstripSlash
  rw [if_neg h]

theorem rstripSlash_isPre (l : Str) : (rstripSlash l).IsPrefix l := by
  unfold rstripSlash
  split_ifs with h
  · conv_rhs => rw [← List.reverse_reverse l]
    exact List.reverse_prefix.mpr (List.dropWhile_suffix _)
  · exact List.prefix_refl l

theorem rstripSlash_ne_nil (l : Str) (h : ∃ x ∈ l, ¬ x = '/') :
    rstripSlash l ≠ [] := by
  unfold rstripSlash
  split_ifs with hl
  · obtain ⟨x, hx, hxs⟩ := h
    intro hc
    have h2 : l.reverse.dropWhile (fun c => c = '/') = [] := by
      have := congrArg List.reverse hc
      simpa using this
    rw [List.dropWhile_eq_nil_iff] at h2
    exact hxs (by simpa using h2 x (by simpa using hx))
  · obtain ⟨x, hx, _⟩ := h
    intro hc
    rw [hc] at hx
    simp at hx

theorem rstripSlash_append (a b : Str) (h : ∃ x ∈ b, ¬ x = '/') :
    rstripSlash (a ++ b) = a ++ rstripSlash b := by
  have hb : b ≠ [] := by
    obtain ⟨x, hx, _⟩ := h
    intro hc; rw [hc] at hx; simp at hx
  have hlast : (a ++ b).getLast? = b.getLast? := by
    rw [List.getLast?_append]
    cases hbl : b.getLast? with
    | none => exact absurd (List.getLast?_eq_none_iff.mp hbl) hb
    | some c => rfl
  unfold rstripSlash
  rw [hlast]
  by_cases hsl : b.getLast? = some '/'
  · rw [if_pos hsl, if_pos hsl]
    have hdw : b.reverse.dropWhile (fun c => c = '/') ≠ [] := by
      rw [Ne, List.dropWhile_eq_nil_iff]
      push_neg
      obtain ⟨x, hx, hxs⟩ := h
      exact ⟨x, by simpa using hx, by simpa using hxs⟩
    rw [List.reverse_append, List.dropWhile_append, if_neg (by simpa using hdw)]
    simp
  · rw [if_neg hsl, if_neg hsl]

theorem prefix_head? (l₁ l₂ : Str) (h : l₁.IsPrefix l₂) (hne : l₁ ≠ []) :
    l₂.head? = l₁.head? := by
  obtain ⟨t, ht⟩ := h
  rw [← ht]
  exact List.head?_append_of_ne_nil _ hne

theorem dropWhile_eq_self_of_head (p : Char → Bool) (l : Str)
    (h : ∀ c, l.head? = some c → p c = false) : l.dropWhile p = l := by
  cases l with
  | nil => rfl
  | cons x t => exact List.dropWhile_cons_of_neg (by simp [h x rfl])

theorem stripWs_eq_self (l : Str)
    (hh : ∀ c, l.head? = some c → isStripChar c = false)
    (hl : ∀ c, l.getLast? = some c → isStripChar c = false) : stripWs l = l := by
  unfold stripWs lstripWs rstripWs
  rw [dropWhile_eq_self_of_head _ l hh]
  rw [dropWhile_eq_self_of_head _ l.reverse
    (by intro c hc; exact hl c (by simpa using hc))]
  simp

theorem removeUnsafe_eq_self (l : Str)
    (h : ∀ c ∈ l, isUnsafeChar c = false) : removeUnsafe l = l := by
  unfold removeUnsafe
  rw [List.filter_eq_self]
  intro a ha
  simp [h a ha]

theorem schemeChars_lower (e : Char) (he : e ∈ schemeChars) :
    lowerChar e ∈ schemeChars ∧ lowerChar (lowerChar e) = lowerChar e ∧
    isAsciiAlpha (lowerChar e) = isAsciiAlpha e := by
  have h : schemeChars.all (fun e => schemeChars.contains (lowerChar e) &&
      (lowerChar (lowerChar e) == lowerChar e) &&
      (isAsciiAlpha (lowerChar e) == isAsciiAlpha e)) = true := by decide
  have h2 := List.all_eq_true.mp h e he
  simp only [Bool.and_eq_true, beq_iff_eq] at h2
  exact ⟨(contains_iff_mem _ _).mp h2.1.1, h2.1.2, h2.2⟩

theorem schemeChars_facts (e : Char) (he : e ∈ schemeChars) :
    isUnsafeChar e = false ∧ isStripChar e = false ∧
    e ≠ ':' ∧ e ≠ '/' ∧ e ≠ '?' ∧ e ≠ '#' := by
  have h : schemeChars.all (fun e => !isUnsafeChar e && !isStripChar e &&
      !(e == ':') && !(e == '/') && !(e == '?') && !(e == '#')) = true := by
    decide
  have h2 := List.all_eq_true.mp h e he
  simp only [Bool.and_eq_true, Bool.not_eq_true', beq_eq_false_iff_ne] at h2
  obtain ⟨⟨⟨⟨⟨f1, f2⟩, f3⟩, f4⟩, f5⟩, f6⟩ := h2
  exact ⟨f1, f2, f3, f4, f5, f6⟩

theorem splitScheme_cases (url : Str) :
    splitScheme url = ([], url) ∨
    ∃ c cs post, url = (c :: cs) ++ ':' :: post ∧ isAsciiAlpha c = true ∧
      (∀ d ∈ c :: cs, d ∈ schemeChars) ∧
      splitScheme url = ((c :: cs).map lowerChar, post) := by
  unfold splitScheme
  cases hsf : splitFirst ':' url with
  | none => left; rfl
  | some p =>
    obtain ⟨pre, post⟩ := p
    cases pre with
    | nil => left; rfl
    | cons c cs =>
      dsimp only
      by_cases hg :
          (isAsciiAlpha c && (c :: cs).all (fun d => schemeChars.contains d)) = true
      · right
        have hg2 : isAsciiAlpha c = true ∧
            ((c :: cs).all (fun d => schemeChars.contains d)) = true := by
          simpa using hg
        refine ⟨c, cs, post, splitFirst_eq_some ':' url _ _ hsf,
          hg2.1, ?_, by rw [if_pos hg]⟩
        intro d hd
        have := List.all_eq_true.mp hg2.2 d hd
        exact (contains_iff_mem _ _).mp this
      · left; rw [if_neg hg]

theorem splitScheme_slash (t : Str) : splitScheme ('/' :: t) = ([], '/' :: t) := by
  rcases splitScheme_cases ('/' :: t) with h | ⟨c, cs, post, hurl, ha, _, _⟩
  · exact h
  · exfalso
    have hc : c = '/' := by
      have := congrArg List.head? hurl
      simpa using this.symm
    rw [hc] at ha
    exact absurd ha (by decide)

theorem splitScheme_exact (c0 : Char) (cs0 rest : Str)
    (hchars : ∀ d ∈ c0 :: cs0, d ∈ schemeChars)
    (hhead : isAsciiAlpha c0 = true)
    (hlow : (c0 :: cs0).map lowerChar = c0 :: cs0) :
    splitScheme ((c0 :: cs0) ++ ':' :: rest) = (c0 :: cs0, rest) := by
  have hnc : ':' ∉ c0 :: cs0 :=
    fun hc => ((schemeChars_facts ':' (hchars ':' hc)).2.2.1) rfl
  have hsf := splitFirst_append ':' (c0 :: cs0) rest hnc
  unfold splitScheme
  rw [hsf]
  dsimp only
  have hg : (isAsciiAlpha c0 &&
      (c0 :: cs0).all (fun d => schemeChars.contains d)) = true := by
    rw [Bool.and_eq_true]
    refine ⟨hhead, List.all_eq_true.mpr ?_⟩
    intro d hd
    exact (contains_iff_mem _ _).mpr (hchars d hd)
  rw [if_pos hg, hlow]

theorem splitNetloc_exact (netloc tail : Str)
    (hn : ∀ c ∈ netloc, isNetlocEnd c = false)
    (ht : tail.head? = some '/') :
    splitNetloc ('/' :: '/' :: (netloc ++ tail)) = (netloc, tail) := by
  obtain ⟨t2, rfl⟩ : ∃ t2, tail = '/' :: t2 := by
    cases tail with
    | nil => simp at ht
    | cons x t2 => simp at ht; exact ⟨t2, by rw [ht]⟩
  show (List.takeWhile (fun c => !isNetlocEnd c) (netloc ++ '/' :: t2),
    List.dropWhile (fun c => !isNetlocEnd c) (netloc ++ '/' :: t2)) =
      (netloc, '/' :: t2)
  have hpos : ∀ a ∈ netloc, (fun c => !isNetlocEnd c) a = true := by
    intro a ha; simp [hn a ha]
  rw [List.takeWhile_append_of_pos hpos, List.dropWhile_append_of_pos hpos]
  have hq : (fun c => !isNetlocEnd c) '/' = false := by decide
  rw [List.takeWhile_cons_of_neg (by simp [hq]),
    List.dropWhile_cons_of_neg (by simp [hq])]
  simp

theorem splitFragment_of_not_mem (url : Str) (h : '#' ∉ url) :
    splitFragment url = (url, []) := by
  unfold splitFragment
  rw [(splitFirst_eq_none_iff '#' url).mpr h]

theorem splitQuery_of_not_mem (url : Str) (h : '?' ∉ url) :
    splitQuery url = (url, []) := by
  unfold splitQuery
  rw [(splitFirst_eq_none_iff '?' url).mpr h]

theorem splitparams_join (u : Str) (h : u.getLast? ≠ some ';') :
    (if (splitparams u).2 = [] then (splitparams u).1
     else (splitparams u).1 ++ ';' :: (splitparams u).2) = u := by
  unfold splitparams
  cases hsl : splitLastSlash u with
  | some p =>
    obtain ⟨a, b⟩ := p
    obtain ⟨hu, hb⟩ := splitLastSlash_eq_some u a b hsl
    dsimp only
    cases hsf : splitFirst ';' b with
    | some q =>
      obtain ⟨b1, b2⟩ := q
      have hbeq := splitFirst_eq_some ';' b b1 b2 hsf
      dsimp only
      by_cases h2 : b2 = []
      · exfalso
        subst h2
        rw [hu, hbeq] at h
        have : (a ++ '/' :: (b1 ++ [';'])).getLast? = some ';' := by
          rw [show a ++ '/' :: (b1 ++ [';']) = (a ++ '/' :: b1) ++ [';'] by simp,
            List.getLast?_concat]
        exact h this
      · rw [if_neg h2, hu, hbeq]
        simp
    | none =>
      dsimp only
      rw [if_pos rfl]
  | none =>
    dsimp only
    cases hsf : splitFirst ';' u with
    | some q =>
      obtain ⟨u1, u2⟩ := q
      have hueq := splitFirst_eq_some ';' u u1 u2 hsf
      dsimp only
      by_cases h2 : u2 = []
      · exfalso
        subst h2
        rw [hueq] at h
        have : (u1 ++ [';']).getLast? = some ';' := List.getLast?_concat _
        exact h this
      · rw [if_neg h2, hueq]
    | none =>
      dsimp only
      rw [if_pos rfl]

theorem splitparams_mem (u : Str) :
    (∀ x ∈ (splitparams u).1, x ∈ u) ∧ (∀ x ∈ (splitparams u).2, x ∈ u) := by
  unfold splitparams
  cases hsl : splitLastSlash u with
  | some p =>
    obtain ⟨a, b⟩ := p
    obtain ⟨hu, _⟩ := splitLastSlash_eq_some u a b hsl
    dsimp only
    cases hsf : splitFirst ';' b with
    | some q =>
      obtain ⟨b1, b2⟩ := q
      have hbeq := splitFirst_eq_some ';' b b1 b2 hsf
      dsimp only
      subst hu
      subst hbeq
      constructor
      · intro x hx
        simp only [List.mem_append, List.mem_cons] at hx ⊢
        tauto
      · intro x hx
        simp only [List.mem_append, List.mem_cons]
        tauto
    | none => exact ⟨fun x hx => hx, fun x hx => by simp at hx⟩
  | none =>
    dsimp only
    cases hsf : splitFirst ';' u with
    | some q =>
      obtain ⟨u1, u2⟩ := q
      have hueq := splitFirst_eq_some ';' u u1 u2 hsf
      dsimp only
      subst hueq
      constructor
      · intro x hx
        simp only [List.mem_append, List.mem_cons]
        tauto
      · intro x hx
        simp only [List.mem_append, List.mem_cons]
        tauto
    | none => exact ⟨fun x hx => hx, fun x hx => by simp at hx⟩

theorem splitparams_snd_no_slash (u : Str) : '/' ∉ (splitparams u).2 := by
  unfold splitparams
  cases hsl : splitLastSlash u with
  | some p =>
    obtain ⟨a, b⟩ := p
    obtain ⟨hu, hb⟩ := splitLastSlash_eq_some u a b hsl
    dsimp only
    cases hsf : splitFirst ';' b with
    | some q =>
      obtain ⟨b1, b2⟩ := q
      have hbeq := splitFirst_eq_some ';' b b1 b2 hsf
      dsimp only
      intro hc
      exact hb (by rw [hbeq]; simp [hc])
    | none => simp
  | none =>
    dsimp only
    cases hsf : splitFirst ';' u with
    | some q =>
      obtain ⟨u1, u2⟩ := q
      have hueq := splitFirst_eq_some ';' u u1 u2 hsf
      have hnu : '/' ∉ u := (splitLastSlash_eq_none_iff u).mp hsl
      dsimp only
      intro hc
      exact hnu (by rw [hueq]; simp [hc])
    | none => simp

theorem splitparams_fst_head (u : Str) :
    (splitparams u).1 = [] ∨ (splitparams u).1.head? = u.head? := by
  unfold splitparams
  cases hsl : splitLastSlash u with
  | some p =>
    obtain ⟨a, b⟩ := p
    obtain ⟨hu, _⟩ := splitLastSlash_eq_some u a b hsl
    dsimp only
    cases hsf : splitFirst ';' b with
    | some q =>
      obtain ⟨b1, b2⟩ := q
      dsimp only
      right
      rw [hu]
      cases a with
      | nil => simp
      | cons x t => simp
    | none => right; rfl
  | none =>
    dsimp only
    cases hsf : splitFirst ';' u with
    | some q =>
      obtain ⟨u1, u2⟩ := q
      have hueq := splitFirst_eq_some ';' u u1 u2 hsf
      dsimp only
      cases u1 with
      | nil => left; rfl
      | cons x t =>
        right
        rw [hueq]
        simp
    | none => right; rfl

theorem splitparams_sep (u : Str) (h2 : (splitparams u).2 ≠ []) :
    ∀ A B, splitLastSlash (splitparams u).1 = some (A, B) → ';' ∉ B := by
  revert h2
  unfold splitparams
  cases hsl : splitLastSlash u with
  | some p =>
    obtain ⟨a, b⟩ := p
    obtain ⟨hu, hb⟩ := splitLastSlash_eq_some u a b hsl
    dsimp only
    cases hsf : splitFirst ';' b with
    | some q =>
      obtain ⟨b1, b2⟩ := q
      have hbeq := splitFirst_eq_some ';' b b1 b2 hsf
      have hnb1 : ';' ∉ b1 := splitFirst_not_mem_left ';' b b1 b2 hsf
      have hsb1 : '/' ∉ b1 := fun hc => hb (by rw [hbeq]; simp [hc])
      dsimp only
      intro _ A B hAB
      rw [splitLastSlash_append a b1 hsb1] at hAB
      simp only [Option.some.injEq, Prod.mk.injEq] at hAB
      rw [← hAB.2]
      exact hnb1
    | none => intro hc; exact absurd rfl hc
  | none =>
    dsimp only
    cases hsf : splitFirst ';' u with
    | some q =>
      obtain ⟨u1, u2⟩ := q
      have hueq := splitFirst_eq_some ';' u u1 u2 hsf
      have hnu : '/' ∉ u := (splitLastSlash_eq_none_iff u).mp hsl
      have hnu1 : '/' ∉ u1 := fun hc => hnu (by rw [hueq]; simp [hc])
      dsimp only
      intro _ A B hAB
      rw [(splitLastSlash_eq_none_iff u1).mpr hnu1] at hAB
      simp at hAB
    | none => intro hc; exact absurd rfl hc

theorem head?_mem (l : Str) (c : Char) (h : l.head? = some c) : c ∈ l := by
  cases l with
  | nil => simp at h
  | cons x t =>
    simp only [List.head?_cons, Option.some.injEq] at h
    rw [← h]
    exact List.mem_cons_self _ _

theorem splitFragment_fst (l : Str) :
    '#' ∉ (splitFragment l).1 ∧ (∀ x ∈ (splitFragment l).1, x ∈ l) ∧
    ((splitFragment l).1 ≠ [] → (splitFragment l).1.head? = l.head?) := by
  unfold splitFragment
  cases hsf : splitFirst '#' l with
  | some p =>
    obtain ⟨A, B⟩ := p
    have heq := splitFirst_eq_some '#' l A B hsf
    have hnm := splitFirst_not_mem_left '#' l A B hsf
    dsimp only
    refine ⟨hnm, ?_, ?_⟩
    · intro x hx; rw [heq]; simp [hx]
    · intro hA
      rw [heq]
      exact (List.head?_append_of_ne_nil _ hA).symm
  | none =>
    dsimp only
    exact ⟨(splitFirst_eq_none_iff '#' l).mp hsf, fun x hx => hx, fun _ => rfl⟩

theorem splitQuery_fst (l : Str) :
    '?' ∉ (splitQuery l).1 ∧ (∀ x ∈ (splitQuery l).1, x ∈ l) ∧
    ((splitQuery l).1 ≠ [] → (splitQuery l).1.head? = l.head?) := by
  unfold splitQuery
  cases hsf : splitFirst '?' l with
  | some p =>
    obtain ⟨A, B⟩ := p
    have heq := splitFirst_eq_some '?' l A B hsf
    have hnm := splitFirst_not_mem_left '?' l A B hsf
    dsimp only
    refine ⟨hnm, ?_, ?_⟩
    · intro x hx; rw [heq]; simp [hx]
    · intro hA
      rw [heq]
      exact (List.head?_append_of_ne_nil _ hA).symm
  | none =>
    dsimp only
    exact ⟨(splitFirst_eq_none_iff '?' l).mp hsf, fun x hx => hx, fun _ => rfl⟩

theorem splitNetloc_cases (url : Str) :
    splitNetloc url = ([], url) ∨
    ∃ rest, url = '/' :: '/' :: rest ∧
      splitNetloc url = (rest.takeWhile (fun c => !isNetlocEnd c),
                         rest.dropWhile (fun c => !isNetlocEnd c)) := by
  unfold splitNetloc
  split
  · next rest => right; exact ⟨rest, rfl, rfl⟩
  · next => left; rfl

/-- Structural invariants of every `urlparse` result, used in the
idempotence analysis. -/
structure UrlInv (p : ParseResult) : Prop where
  scheme_chars : ∀ d ∈ p.scheme, d ∈ schemeChars
  scheme_lower : p.scheme.map lowerChar = p.scheme
  scheme_head : ∀ c cs, p.scheme = c :: cs → isAsciiAlpha c = true
  netloc_clean : ∀ c ∈ p.netloc, isNetlocEnd c = false ∧ isUnsafeChar c = false
  path_clean : ∀ c ∈ p.path, c ≠ '?' ∧ c ≠ '#' ∧ isUnsafeChar c = false
  params_clean : ∀ c ∈ p.params,
    c ≠ '?' ∧ c ≠ '#' ∧ c ≠ '/' ∧ isUnsafeChar c = false
  path_head : p.netloc ≠ [] → p.path ≠ [] → p.path.head? = some '/'
  params_sep : p.params ≠ [] →
    ∀ A B, splitLastSlash p.path = some (A, B) → ';' ∉ B

set_option maxHeartbeats 1600000 in
theorem urlsplit_inv (u : Str) : UrlInv (urlsplit u) := by
  have hclean : ∀ c ∈ removeUnsafe (stripWs u), isUnsafeChar c = false := by
    intro c hc
    have := (List.mem_filter.mp hc).2
    simpa using this
  set url0 := removeUnsafe (stripWs u) with hurl0
  have hcomp : urlsplit u =
      ⟨(splitScheme url0).1,
       (splitNetloc (splitScheme url0).2).1,
       (splitQuery (splitFragment (splitNetloc (splitScheme url0).2).2).1).1,
       [],
       (splitQuery (splitFragment (splitNetloc (splitScheme url0).2).2).1).2,
       (splitFragment (splitNetloc (splitScheme url0).2).2).2⟩ := rfl
  rw [hcomp]
  obtain ⟨hs_chars, hs_lower, hs_head, hmid⟩ :
      (∀ d ∈ (splitScheme url0).1, d ∈ schemeChars) ∧
      ((splitScheme url0).1.map lowerChar = (splitScheme url0).1) ∧
      (∀ c cs, (splitScheme url0).1 = c :: cs → isAsciiAlpha c = true) ∧
      (∀ c ∈ (splitScheme url0).2, isUnsafeChar c = false) := by
    rcases splitScheme_cases url0 with h | ⟨c, cs, post, hdec, ha, hchars, h⟩
    · rw [h]
      exact ⟨by simp, rfl, by simp, hclean⟩
    · rw [h]
      refine ⟨?_, ?_, ?_, ?_⟩
      · intro d hd
        simp only [List.mem_map] at hd
        obtain ⟨e, he, rfl⟩ := hd
        exact (schemeChars_lower e (hchars e he)).1
      · rw [List.map_map]
        apply List.map_congr_left
        intro e he
        exact (schemeChars_lower e (hchars e he)).2.1
      · intro c' cs' hcc
        have hc' : lowerChar c = c' := by
          have := congrArg List.head? hcc
          simpa using this
        rw [← hc']
        rw [(schemeChars_lower c (hchars c (by simp))).2.2]
        exact ha
      · intro x hx
        apply hclean
        rw [hdec]
        simp [hx]
  obtain ⟨hn_clean, htail_clean, htail_head⟩ :
      (∀ c ∈ (splitNetloc (splitScheme url0).2).1,
        isNetlocEnd c = false ∧ isUnsafeChar c = false) ∧
      (∀ c ∈ (splitNetloc (splitScheme url0).2).2, isUnsafeChar c = false) ∧
      ((splitNetloc (splitScheme url0).2).1 ≠ [] →
        ∀ c, (splitNetloc (splitScheme url0).2).2.head? = some c →
          isNetlocEnd c = true) := by
    rcases splitNetloc_cases (splitScheme url0).2 with h | ⟨rest, hdec, h⟩
    · rw [h]
      exact ⟨by simp, hmid, fun hc => absurd rfl hc⟩
    · rw [h]
      refine ⟨?_, ?_, ?_⟩
      · intro c hc
        have h1 := List.mem_takeWhile_imp hc
        have h2 : c ∈ rest := (List.takeWhile_prefix _).subset hc
        refine ⟨by simpa using h1, ?_⟩
        apply hmid
        rw [hdec]
        simp [h2]
      · intro c hc
        have h2 : c ∈ rest := (List.dropWhile_suffix _).subset hc
        apply hmid
        rw [hdec]
        simp [h2]
      · intro _ c hc
        have := head_dropWhile_false _ rest c hc
        simpa using this
  set tail := (splitNetloc (splitScheme url0).2).2 with htail
  obtain ⟨hf_nm, hf_sub, hf_head⟩ := splitFragment_fst tail
  set f1 := (splitFragment tail).1 with hf1
  obtain ⟨hq_nm, hq_sub, hq_head⟩ := splitQuery_fst f1
  set path0 := (splitQuery f1).1 with hpath0
  refine ⟨hs_chars, hs_lower, hs_head, hn_clean, ?_,
    by intro c hc; simp at hc, ?_, by intro h; simp at h⟩
  · intro c hc
    refine ⟨fun he => hq_nm (he ▸ hc), fun he => hf_nm (he ▸ hq_sub c hc), ?_⟩
    exact htail_clean c (hf_sub c (hq_sub c hc))
  · intro hnet hpath
    have hf1ne : f1 ≠ [] := by
      intro hc
      obtain ⟨x, hx⟩ := List.exists_mem_of_ne_nil _ hpath
      have := hq_sub x hx
      rw [hc] at this
      simp at this
    have h1 : path0.head? = f1.head? := hq_head hpath
    have h2 : f1.head? = tail.head? := hf_head hf1ne
    obtain ⟨c0, hc0⟩ : ∃ c0, path0.head? = some c0 := by
      cases hp : path0 with
      | nil => exact absurd hp hpath
      | cons x t => exact ⟨x, rfl⟩
    have hc0mem : c0 ∈ path0 := head?_mem path0 c0 hc0
    have hnl : isNetlocEnd c0 = true := by
      apply htail_head hnet c0
      rw [← h2, ← h1, hc0]
    have hne1 : c0 ≠ '?' := fun he => hq_nm (he ▸ hc0mem)
    have hne2 : c0 ≠ '#' := fun he => hf_nm (he ▸ hq_sub c0 hc0mem)
    have : c0 = '/' := by
      simp only [isNetlocEnd, Bool.or_eq_true, decide_eq_true_eq] at hnl
      tauto
    rw [hc0, this]

theorem urlparse_inv (u : Str) : UrlInv (urlparse u) := by
  have hs := urlsplit_inv u
  unfold urlparse
  dsimp only
  split
  · next hcont =>
    set r := urlsplit u with hr
    refine ⟨hs.scheme_chars, hs.scheme_lower, hs.scheme_head,
      hs.netloc_clean, ?_, ?_, ?_, ?_⟩
    · intro c hc
      exact hs.path_clean c ((splitparams_mem r.path).1 c hc)
    · intro c hc
      have hmem := (splitparams_mem r.path).2 c hc
      have h1 := hs.path_clean c hmem
      have h2 : c ≠ '/' := by
        intro he
        exact splitparams_snd_no_slash r.path (he ▸ hc)
      exact ⟨h1.1, h1.2.1, h2, h1.2.2⟩
    · intro hnet hpath
      rcases splitparams_fst_head r.path with h | h
      · exact absurd h hpath
      · rw [h]
        apply hs.path_head hnet
        intro hc
        obtain ⟨x, hx⟩ := List.exists_mem_of_ne_nil _ hpath
        have := (splitparams_mem r.path).1 x hx
        rw [hc] at this
        simp at this
    · intro hpne A B hAB
      exact splitparams_sep r.path hpne A B hAB
  · next hcont =>
    exact hs

theorem getLast?_mem (l : Str) (c : Char) (h : l.getLast? = some c) : c ∈ l := by
  rw [← List.head?_reverse] at h
  have := head?_mem l.reverse c h
  simpa using this

theorem urlunsplit_no_insert (scheme netloc url : Str)
    (hn : netloc ≠ []) (hu : url.head? = some '/') :
    urlunsplit scheme netloc url [] [] =
      (if scheme = [] then '/' :: '/' :: (netloc ++ url)
       else scheme ++ ':' :: ('/' :: '/' :: (netloc ++ url))) := by
  have hu_ne : url ≠ [] := by intro hc; rw [hc] at hu; simp at hu
  unfold urlunsplit
  dsimp only
  split_ifs <;> first | rfl | (exfalso; simp_all)

theorem reparse_urlsplit (sch nl TAIL : Str)
    (hsch_chars : ∀ d ∈ sch, d ∈ schemeChars)
    (hsch_lower : sch.map lowerChar = sch)
    (hsch_head : ∀ c cs, sch = c :: cs → isAsciiAlpha c = true)
    (hnl : ∀ c ∈ nl, isNetlocEnd c = false ∧ isUnsafeChar c = false)
    (hT_head : TAIL.head? = some '/')
    (hT_clean : ∀ x ∈ TAIL, x ≠ '?' ∧ x ≠ '#' ∧ isUnsafeChar x = false)
    (hT_last : ∀ c, TAIL.getLast? = some c → isStripChar c = false) :
    urlsplit (if sch = [] then '/' :: '/' :: (nl ++ TAIL)
      else sch ++ ':' :: ('/' :: '/' :: (nl ++ TAIL))) =
      ⟨sch, nl, TAIL, [], [], []⟩ := by
  have hT_ne : TAIL ≠ [] := by intro hc; rw [hc] at hT_head; simp at hT_head
  set s := (if sch = [] then '/' :: '/' :: (nl ++ TAIL)
    else sch ++ ':' :: ('/' :: '/' :: (nl ++ TAIL))) with hsdef
  have hmemW : ∀ c ∈ ('/' :: '/' :: (nl ++ TAIL) : Str),
      c = '/' ∨ c ∈ nl ∨ c ∈ TAIL := by
    intro c hc
    rcases List.mem_cons.mp hc with h | h
    · exact Or.inl h
    · rcases List.mem_cons.mp h with h | h
      · exact Or.inl h
      · rcases List.mem_append.mp h with h | h
        · exact Or.inr (Or.inl h)
        · exact Or.inr (Or.inr h)
  have hmem : ∀ c ∈ s, c ∈ sch ∨ c = ':' ∨ c = '/' ∨ c ∈ nl ∨ c ∈ TAIL := by
    rw [hsdef]
    intro c hc
    split_ifs at hc with h
    · rcases hmemW c hc with h | h | h
      · exact Or.inr (Or.inr (Or.inl h))
      · exact Or.inr (Or.inr (Or.inr (Or.inl h)))
      · exact Or.inr (Or.inr (Or.inr (Or.inr h)))
    · rcases List.mem_append.mp hc with h | h
      · exact Or.inl h
      · rcases List.mem_cons.mp h with h | h
        · exact Or.inr (Or.inl h)
        · rcases hmemW c h with h | h | h
          · exact Or.inr (Or.inr (Or.inl h))
          · exact Or.inr (Or.inr (Or.inr (Or.inl h)))
          · exact Or.inr (Or.inr (Or.inr (Or.inr h)))
  have hclean : ∀ c ∈ s, isUnsafeChar c = false := by
    intro c hc
    rcases hmem c hc with h | h | h | h | h
    · exact (schemeChars_facts c (hsch_chars c h)).1
    · rw [h]; decide
    · rw [h]; decide
    · exact (hnl c h).2
    · exact (hT_clean c h).2.2
  have hhead : ∀ c, s.head? = some c → isStripChar c = false := by
    rw [hsdef]
    intro c hc
    split_ifs at hc with h
    · simp only [List.head?_cons, Option.some.injEq] at hc
      rw [← hc]; decide
    · obtain ⟨c0, cs0, rfl⟩ : ∃ c0 cs0, sch = c0 :: cs0 := by
        cases sch with
        | nil => exact absurd rfl h
        | cons c0 cs0 => exact ⟨c0, cs0, rfl⟩
      simp only [List.cons_append, List.head?_cons, Option.some.injEq] at hc
      rw [← hc]
      exact (schemeChars_facts c0 (hsch_chars c0 (by simp))).2.1
  have hlastW : ('/' :: '/' :: (nl ++ TAIL) : Str).getLast? = TAIL.getLast? := by
    rw [show ('/' :: '/' :: (nl ++ TAIL) : Str) =
      ('/' :: '/' :: nl) ++ TAIL by simp]
    exact List.getLast?_append_of_ne_nil _ hT_ne
  have hlast : ∀ c, s.getLast? = some c → isStripChar c = false := by
    rw [hsdef]
    intro c hc
    split_ifs at hc with h
    · exact hT_last c (hlastW ▸ hc)
    · rw [show sch ++ ':' :: ('/' :: '/' :: (nl ++ TAIL)) =
        (sch ++ ':' :: '/' :: '/' :: nl) ++ TAIL by simp,
        List.getLast?_append_of_ne_nil _ hT_ne] at hc
      exact hT_last c hc
  have hstrip : stripWs s = s := stripWs_eq_self s hhead hlast
  have hrm : removeUnsafe s = s := removeUnsafe_eq_self s hclean
  have hss : splitScheme s = (sch, '/' :: '/' :: (nl ++ TAIL)) := by
    rw [hsdef]
    split_ifs with h
    · rw [h]
      exact splitScheme_slash _
    · obtain ⟨c0, cs0, rfl⟩ : ∃ c0 cs0, sch = c0 :: cs0 := by
        cases sch with
        | nil => exact absurd rfl h
        | cons c0 cs0 => exact ⟨c0, cs0, rfl⟩
      exact splitScheme_exact c0 cs0 _ hsch_chars (hsch_head c0 cs0 rfl) hsch_lower
  have hsn : splitNetloc ('/' :: '/' :: (nl ++ TAIL)) = (nl, TAIL) :=
    splitNetloc_exact nl TAIL (fun c hc => (hnl c hc).1) hT_head
  have hneq : '#' ∉ TAIL := fun hc => (hT_clean '#' hc).2.1 rfl
  have hneq2 : '?' ∉ TAIL := fun hc => (hT_clean '?' hc).1 rfl
  have hres : urlsplit s =
      ⟨(splitScheme (removeUnsafe (stripWs s))).1,
       (splitNetloc (splitScheme (removeUnsafe (stripWs s))).2).1,
       (splitQuery (splitFragment
         (splitNetloc (splitScheme (removeUnsafe (stripWs s))).2).2).1).1,
       [],
       (splitQuery (splitFragment
         (splitNetloc (splitScheme (removeUnsafe (stripWs s))).2).2).1).2,
       (splitFragment
         (splitNetloc (splitScheme (removeUnsafe (stripWs s))).2).2).2⟩ := rfl
  rw [hres, hstrip, hrm, hss]
  dsimp only
  rw [hsn]
  dsimp only
  rw [splitFragment_of_not_mem TAIL hneq]
  dsimp only
  rw [splitQuery_of_not_mem TAIL hneq2]

theorem acceptParsed_pos (P : ParseResult)
    (h1 : inStr linkedinDomain P.netloc = true)
    (h2 : inStr companyMarker P.path = true) :
    acceptParsed P =
      some (rstripSlash (urlunparse { P with query := [], fragment := [] })) := by
  unfold acceptParsed
  rw [if_neg (by simp [h1]), if_neg (by simp [h2])]

theorem acceptParsed_eq_some (P : ParseResult) (s : Str)
    (h : acceptParsed P = some s) :
    inStr linkedinDomain P.netloc = true ∧ inStr companyMarker P.path = true ∧
    s = rstripSlash (urlunparse { P with query := [], fragment := [] }) := by
  unfold acceptParsed at h
  split at h
  · exact absurd h (by simp)
  · next h1 =>
    split at h
    · exact absurd h (by simp)
    · next h2 =>
      simp only [Option.some.injEq] at h
      refine ⟨?_, ?_, h.symm⟩
      · simpa using h1
      · simpa using h2

theorem normalize_eq_some (raw s : Str)
    (h : normalize_linkedin_url raw = some s) :
    ∃ u, inStr linkedinDomain (urlparse u).netloc = true ∧
         inStr companyMarker (urlparse u).path = true ∧
         s = rstripSlash (urlunparse
           { urlparse u with query := [], fragment := [] }) := by
  unfold normalize_linkedin_url at h
  split at h
  · exact absurd h (by simp)
  · dsimp only at h
    split at h
    · split at h
      · next cand _ => exact ⟨cand, acceptParsed_eq_some _ s h⟩
      · exact ⟨raw, acceptParsed_eq_some _ s h⟩
    · exact ⟨raw, acceptParsed_eq_some _ s h⟩

theorem normalize_of_linkedin_netloc (s : Str) (hne : s ≠ [])
    (h : inStr linkedinDomain (urlparse s).netloc = true) :
    normalize_linkedin_url s = acceptParsed (urlparse s) := by
  unfold normalize_linkedin_url
  rw [if_neg hne]
  dsimp only
  rw [if_neg (by simp [h])]

/-- The canonical output does not end in WHATWG URL whitespace or in the
params separator `;`. -/
def goodTail (s : Str) : Bool :=
  match s.getLast? with
  | some c => !isStripChar c && !(c == ';')
  | none => true

theorem goodTail_spec (s : Str) (h : goodTail s = true) :
    ∀ c, s.getLast? = some c → isStripChar c = false ∧ c ≠ ';' := by
  intro c hc
  unfold goodTail at h
  rw [hc] at h
  simp only [Bool.and_eq_true, Bool.not_eq_true'] at h
  exact ⟨h.1, by simpa using h.2⟩

theorem if_params_flip (pa pr : Str) :
    (if pr ≠ [] then pa ++ ';' :: pr else pa) =
    (if pr = [] then pa else pa ++ ';' :: pr) := by
  by_cases h : pr = [] <;> simp [h]

set_option maxHeartbeats 3200000 in
theorem normalize_reaccepts (u : Str)
    (hn : inStr linkedinDomain (urlparse u).netloc = true)
    (hm : inStr companyMarker (urlparse u).path = true)
    (hgt : goodTail (rstripSlash (urlunparse
      { urlparse u with query := [], fragment := [] })) = true)
    (h3 : inStr companyMarker (urlparse (rstripSlash (urlunparse
      { urlparse u with query := [], fragment := [] }))).path = true) :
    normalize_linkedin_url (rstripSlash (urlunparse
      { urlparse u with query := [], fragment := [] })) =
      some (rstripSlash (urlunparse
        { urlparse u with query := [], fragment := [] })) := by
  have inv := urlparse_inv u
  obtain ⟨P, hP⟩ : ∃ P, urlparse u = P := ⟨urlparse u, rfl⟩
  rw [hP] at hn hm hgt h3 inv ⊢
  have hnl_ne : P.netloc ≠ [] := inStr_ne_nil _ _ hn (by decide)
  have hpa_ne : P.path ≠ [] := inStr_ne_nil _ _ hm (by decide)
  have hpa_head : P.path.head? = some '/' := inv.path_head hnl_ne hpa_ne
  have hcmem : 'c' ∈ P.path := inStr_sub _ _ hm 'c' (by decide)
  set join := (if P.params ≠ [] then P.path ++ ';' :: P.params else P.path)
    with hjoin
  have hjoin_head : join.head? = some '/' := by
    rw [hjoin]
    split_ifs with h
    · rw [List.head?_append_of_ne_nil _ hpa_ne]; exact hpa_head
    · exact hpa_head
  have hcjoin : 'c' ∈ join := by
    rw [hjoin]; split_ifs with h
    · simp [hcmem]
    · exact hcmem
  have hunp : urlunparse { P with query := [], fragment := [] } =
      (if P.scheme = [] then '/' :: '/' :: (P.netloc ++ join)
       else P.scheme ++ ':' :: ('/' :: '/' :: (P.netloc ++ join))) := by
    unfold urlunparse
    dsimp only
    rw [← hjoin]
    exact urlunsplit_no_insert P.scheme P.netloc join hnl_ne hjoin_head
  set TAIL := (if P.params ≠ [] then P.path ++ ';' :: P.params
    else rstripSlash P.path) with hTAIL
  have hrsl_join : rstripSlash join = TAIL := by
    rw [hjoin, hTAIL]
    split_ifs with h
    · apply rstripSlash_eq_of_getLast
      rw [List.getLast?_append_of_ne_nil _
        (by simp : (';' :: P.params : Str) ≠ [])]
      cases hx : (';' :: P.params : Str).getLast? with
      | none => simp at hx
      | some x =>
        intro hc
        have hxe : x = '/' := by simpa using hc
        subst hxe
        have hxmem := getLast?_mem _ _ hx
        rcases List.mem_cons.mp hxmem with h1 | h1
        · exact absurd h1 (by decide)
        · exact (inv.params_clean _ h1).2.2.1 rfl
    · rfl
  have hfull : rstripSlash (urlunparse { P with query := [], fragment := [] }) =
      (if P.scheme = [] then '/' :: '/' :: (P.netloc ++ TAIL)
       else P.scheme ++ ':' :: ('/' :: '/' :: (P.netloc ++ TAIL))) := by
    rw [hunp]
    split_ifs with h
    · rw [show ('/' :: '/' :: (P.netloc ++ join) : Str) =
        ('/' :: '/' :: P.netloc) ++ join by simp,
        rstripSlash_append _ _ ⟨'c', hcjoin, by decide⟩, hrsl_join]
      simp
    · rw [show (P.scheme ++ ':' :: ('/' :: '/' :: (P.netloc ++ join)) : Str) =
        (P.scheme ++ ':' :: '/' :: '/' :: P.netloc) ++ join by simp,
        rstripSlash_append _ _ ⟨'c', hcjoin, by decide⟩, hrsl_join]
      simp
  set s := rstripSlash (urlunparse { P with query := [], fragment := [] })
    with hs
  have hT_ne : TAIL ≠ [] := by
    rw [hTAIL]; split_ifs with h
    · simp
    · exact rstripSlash_ne_nil _ ⟨'c', hcmem, by decide⟩
  have hT_head : TAIL.head? = some '/' := by
    rw [hTAIL]; split_ifs with h
    · rw [List.head?_append_of_ne_nil _ hpa_ne]; exact hpa_head
    · have hpre := rstripSlash_isPre P.path
      have hne2 := rstripSlash_ne_nil P.path ⟨'c', hcmem, by decide⟩
      rw [← prefix_head? _ _ hpre hne2]
      exact hpa_head
  have hT_mem : ∀ x ∈ TAIL, x ∈ P.path ∨ x = ';' ∨ x ∈ P.params := by
    rw [hTAIL]; split_ifs with h
    · intro x hx
      rcases List.mem_append.mp hx with h1 | h1
      · exact Or.inl h1
      · rcases List.mem_cons.mp h1 with h1 | h1
        · exact Or.inr (Or.inl h1)
        · exact Or.inr (Or.inr h1)
    · intro x hx
      exact Or.inl ((rstripSlash_isPre _).subset hx)
  have hT_clean : ∀ x ∈ TAIL, x ≠ '?' ∧ x ≠ '#' ∧ isUnsafeChar x = false := by
    intro x hx
    rcases hT_mem x hx with h | h | h
    · exact inv.path_clean x h
    · rw [h]; exact ⟨by decide, by decide, by decide⟩
    · have h2 := inv.params_clean x h
      exact ⟨h2.1, h2.2.1, h2.2.2.2⟩
  have hs_eq_last : s.getLast? = TAIL.getLast? := by
    rw [hfull]
    split_ifs with h
    · rw [show ('/' :: '/' :: (P.netloc ++ TAIL) : Str) =
        ('/' :: '/' :: P.netloc) ++ TAIL by simp]
      exact List.getLast?_append_of_ne_nil _ hT_ne
    · rw [show (P.scheme ++ ':' :: ('/' :: '/' :: (P.netloc ++ TAIL)) : Str) =
        (P.scheme ++ ':' :: '/' :: '/' :: P.netloc) ++ TAIL by simp]
      exact List.getLast?_append_of_ne_nil _ hT_ne
  have hs_last := goodTail_spec s hgt
  have hT_last : ∀ c, TAIL.getLast? = some c → isStripChar c = false := by
    intro c hc
    exact (hs_last c (by rw [hs_eq_last]; exact hc)).1
  have hT_last_ne : TAIL.getLast? ≠ some ';' := by
    intro hc
    exact (hs_last ';' (by rw [hs_eq_last]; exact hc)).2 rfl
  have hsplit : urlsplit s = ⟨P.scheme, P.netloc, TAIL, [], [], []⟩ := by
    rw [hfull]
    exact reparse_urlsplit P.scheme P.netloc TAIL inv.scheme_chars
      inv.scheme_lower inv.scheme_head inv.netloc_clean hT_head hT_clean hT_last
  have hparse : (urlparse s).scheme = P.scheme ∧
      (urlparse s).netloc = P.netloc ∧
      (if (urlparse s).params = [] then (urlparse s).path
       else (urlparse s).path ++ ';' :: (urlparse s).params) = TAIL := by
    by_cases h : List.contains TAIL ';' = true
    · have heq : urlparse s = ⟨P.scheme, P.netloc, (splitparams TAIL).1,
          (splitparams TAIL).2, [], []⟩ := by
        unfold urlparse
        rw [hsplit]
        dsimp only
        rw [if_pos h]
      rw [heq]
      exact ⟨rfl, rfl, splitparams_join TAIL hT_last_ne⟩
    · have heq : urlparse s = ⟨P.scheme, P.netloc, TAIL, [], [], []⟩ := by
        unfold urlparse
        rw [hsplit]
        dsimp only
        rw [if_neg h]
      rw [heq]
      exact ⟨rfl, rfl, by simp⟩
  have hs_ne : s ≠ [] := by
    rw [hfull]; split_ifs with h
    · simp
    · simp
  have hnet_s : inStr linkedinDomain (urlparse s).netloc = true := by
    rw [hparse.2.1]; exact hn
  have hup2 : urlunparse { urlparse s with query := [], fragment := [] } =
      (if P.scheme = [] then '/' :: '/' :: (P.netloc ++ TAIL)
       else P.scheme ++ ':' :: ('/' :: '/' :: (P.netloc ++ TAIL))) := by
    unfold urlunparse
    dsimp only
    rw [hparse.1, hparse.2.1, if_params_flip, hparse.2.2]
    exact urlunsplit_no_insert _ _ TAIL hnl_ne hT_head
  have hfinal : rstripSlash (urlunparse
      { urlparse s with query := [], fragment := [] }) = s := by
    rw [hup2, ← hfull]
    apply rstripSlash_eq_of_getLast
    rw [hs]
    exact rstripSlash_getLast _
  rw [normalize_of_linkedin_netloc s hs_ne hnet_s,
    acceptParsed_pos (urlparse s) hnet_s h3, hfinal]

/-- C7 (counterexample): idempotence fails as stated: the accepted input
`https://www.linkedin.com/company/` produces the canonical output
`https://www.linkedin.com/company`, and normalizing that output returns
nothing (its path no longer contains the `/company/` marker), not the
output unchanged. -/
theorem normalize_idem_cex :
    normalize_linkedin_url (cl "https://www.linkedin.com/company/") =
      some (cl "https://www.linkedin.com/company") ∧
    normalize_linkedin_url (cl "https://www.linkedin.com/company") = none := by
  constructor
  · decide
  · decide

/-- C7 (amended): normalization is idempotent on every canonical output
whose final character is neither WHATWG URL whitespace nor the params
separator `;`, and whose parsed path still contains `/company/`: applying
normalization to such an output returns it unchanged.  (The counterexample
shows the extra conditions are necessary: stripping the trailing separator
can erase the `/company/` marker, making normalization reject its own
output.) -/
theorem normalize_idem_amended (raw s : Str)
    (h1 : normalize_linkedin_url raw = some s)
    (h2 : goodTail s = true)
    (h3 : inStr companyMarker (urlparse s).path = true) :
    normalize_linkedin_url s = some s := by
  obtain ⟨u, hn, hm, hs⟩ := normalize_eq_some raw s h1
  subst hs
  exact normalize_reaccepts u hn hm h2 h3

theorem normalize_idem_amended_witness :
    normalize_linkedin_url (cl "https://www.linkedin.com/company/acme") =
      some (cl "https://www.linkedin.com/company/acme") :=
  normalize_idem_amended (cl "https://www.linkedin.com/company/acme/")
    (cl "https://www.linkedin.com/company/acme")
    (by decide) (by decide) (by decide)
